import Mathlib

set_option maxRecDepth 2000

/-!
Verification of the classical factorization suite and its benchmarking harness.

The Lean definitions below are a shallow embedding of the Python sources
`classical_factorization.py` and `comparison.py`: Python arbitrary-precision
integers become `Nat`/`Int` (Python `%` and `//` on `Int` are floor mod and
floor division, i.e. `Int.fmod` and `Int.fdiv`), Python `while` loops become
recursion (well-founded where the loop provably terminates, fuel-indexed where
the loop has an explicit iteration budget or where termination is part of what
is being investigated), raising code returns `Except`, and `None`-or-value
results become `Option`.  The calls to `random.randint` in Pollard's rho are
modelled by explicit parameters (a stream of draws for the recursive
factorizer), so theorems quantify over all possible outcomes of the random
choices.
-/

namespace ShorFact

/-- Python `range(s, e, step)` for a positive `step`, as the list
`[s, s + step, ...)` of all values below `e`. -/
def pyRange (s e step : Nat) : List Nat :=
  List.range' s ((e - s + step - 1) / step) step

/-- Fuel-indexed fast modular exponentiation, a proof device used to certify
`b ^ e % m` facts for large `e` without materializing `b ^ e`
(see `powModAux_eq`). -/
def powModAux : Nat → Nat → Nat → Nat → Nat
  | 0, _, _, m => 1 % m
  | fuel + 1, b, e, m =>
    if e = 0 then 1 % m
    else if e % 2 = 1 then powModAux fuel (b * b % m) (e / 2) m * b % m
    else powModAux fuel (b * b % m) (e / 2) m

/-- Binary-search step of the integer square root: descend through the bits
`fuel - 1, ..., 0`, greedily setting each bit of the root `r`. -/
def isqrtGo (m : Nat) : Nat → Nat → Nat
  | 0, r => r
  | bit + 1, r =>
    if (r + 2 ^ bit) * (r + 2 ^ bit) ≤ m then isqrtGo m bit (r + 2 ^ bit)
    else isqrtGo m bit r

/-- The exact integer square root used to model Python's
`int(math.sqrt(m))` / `math.ceil(math.sqrt(m))`; equal to `Nat.sqrt` on every
input (`intSqrt_eq`).  The bounded binary search makes every concrete
instance below `2^128` reduce inside the kernel (the float `math.sqrt` being
modelled is itself exact only far below that). -/
def intSqrt (m : Nat) : Nat :=
  if m < 2 ^ 128 then isqrtGo m 64 0 else Nat.sqrt m

/-! ## `classical_factorization.trial_division` -/

/-- The inner stripping loop of `trial_division`
(`while n % i == 0: factors.append(i); n //= i`), returning the appended
factors and the final value of `n`.  The conjuncts `2 ≤ p ∧ 0 < n` only
express that the Python loop terminates (both hold at every call site);
for such `p`, `n` the branch taken is decided by `n % p == 0` exactly as in
the source. -/
def stripFactor (p n : Nat) : List Nat × Nat :=
  if h : 2 ≤ p ∧ 0 < n ∧ n % p = 0 then
    (p :: (stripFactor p (n / p)).1, (stripFactor p (n / p)).2)
  else ([], n)
termination_by n
decreasing_by
all_goals exact Nat.div_lt_self h.2.1 (lt_of_lt_of_le one_lt_two h.1)

/-- The odd-divisor outer loop of `trial_division`
(`i = 3; while i * i <= n: <strip i from n>; i += 2`), returning the factors
found and the final remaining value of `n`. -/
def oddFactorLoop (n i : Nat) : List Nat × Nat :=
  if h : i * i ≤ n then
    ((stripFactor i n).1 ++ (oddFactorLoop (stripFactor i n).2 (i + 2)).1,
      (oddFactorLoop (stripFactor i n).2 (i + 2)).2)
  else ([], n)
termination_by n + 2 - i
decreasing_by
have hi : i = 0 ∨ i ≤ n := by
  rcases Nat.eq_zero_or_pos i with h0 | h0
  · exact Or.inl h0
  · exact Or.inr (le_trans (Nat.le_mul_of_pos_left i h0) h)
have hs : (stripFactor i n).2 ≤ n := by
  clear hi h
  induction n using stripFactor.induct i with
  | case1 n h2 ih =>
    rw [stripFactor, dif_pos h2]
    exact le_trans ih (Nat.div_le_self _ _)
  | case2 n h2 =>
    rw [stripFactor, dif_neg h2]
omega

/-- The body of `trial_division` after its `n < 2` guard: strip the factor 2,
run the odd-divisor loop from `i = 3`, and append the remaining value if it
exceeds 2. -/
def tdNat (n : Nat) : List Nat :=
  (stripFactor 2 n).1 ++ (oddFactorLoop (stripFactor 2 n).2 3).1 ++
    (if 2 < (oddFactorLoop (stripFactor 2 n).2 3).2
      then [(oddFactorLoop (stripFactor 2 n).2 3).2] else [])

/-- `trial_division(n)`.  For `n ≥ 2` all intermediate values are positive, so
the arbitrary-precision integer arithmetic of the source is carried out in
`Nat` (`tdNat`) and the results cast back to `ℤ`. -/
def trial_division (n : ℤ) : List ℤ :=
  if n < 2 then [] else (tdNat n.toNat).map (Nat.cast : ℕ → ℤ)

/-! ## `classical_factorization.gcd` (identical to `shors_algorithm.gcd`) -/

/-- `gcd(a, b)`: `while b: a, b = b, a % b; return a`, with Python's
floor-mod `%` (`Int.fmod`). -/
def gcd (a b : ℤ) : ℤ :=
  if h : b = 0 then a else gcd b (Int.fmod a b)
termination_by b.natAbs
decreasing_by
show (Int.fmod a b).natAbs < b.natAbs
have hb : b ≠ 0 := h
rcases lt_trichotomy b 0 with h' | h' | h'
· obtain ⟨m, rfl⟩ : ∃ m : ℕ, b = Int.negSucc m := by
    cases b with
    | ofNat k => exact absurd h' (Int.ofNat_nonneg k).not_lt
    | negSucc m => exact ⟨m, rfl⟩
  cases a with
  | ofNat k =>
    cases k with
    | zero =>
      have e : Int.fmod (Int.ofNat 0) (Int.negSucc m) = 0 := rfl
      rw [e]
      simpa using Nat.succ_pos m
    | succ j =>
      have e : Int.fmod (Int.ofNat (j + 1)) (Int.negSucc m) =
          Int.subNatNat (j % (m + 1)) m := rfl
      rw [e, Int.subNatNat_eq_coe]
      have hj : j % (m + 1) < m + 1 := Nat.mod_lt _ (Nat.succ_pos m)
      rw [Int.natAbs_negSucc]
      omega
  | negSucc k =>
    have e : Int.fmod (Int.negSucc k) (Int.negSucc m) =
        -Int.ofNat ((k + 1) % (m + 1)) := rfl
    rw [e, Int.natAbs_neg, Int.natAbs_negSucc]
    exact Nat.mod_lt _ (Nat.succ_pos m)
· exact absurd h' hb
· have h1 := Int.fmod_nonneg' a h'
  have h2 := Int.fmod_lt_of_pos a h'
  omega

/-! ## `classical_factorization.pollard_rho` -/

/-- The pseudorandom map `f(x) = (x*x + c) % n` of Pollard's rho. -/
def rhoStep (n c x : Nat) : Nat :=
  (x * x + c) % n

/-- The tortoise/hare loop of `pollard_rho`
(`while d == 1 and iteration < max_iterations`), returning the final value of
`d`.  `fuel` is the number of iterations still allowed
(`max_iterations - iteration`).  The values `x`, `y` always lie in
`[0, n)` after the first step, so `abs(x - y)` is `max x' y' - min x' y'`;
the call to the module's own `gcd` is on the non-negative operands
`abs(x - y)` and `n`, where it agrees with `Nat.gcd` (`gcd_natCast_natCast`
below). -/
def pollardRhoLoop (n c : Nat) : Nat → Nat → Nat → Nat → Nat
  | 0, _, _, d => d
  | fuel + 1, x, y, d =>
    if d ≠ 1 then d
    else
      pollardRhoLoop n c fuel (rhoStep n c x) (rhoStep n c (rhoStep n c y))
        (Nat.gcd (max (rhoStep n c x) (rhoStep n c (rhoStep n c y)) -
          min (rhoStep n c x) (rhoStep n c (rhoStep n c y))) n)

/-- `pollard_rho(n, max_iterations)`.  The draws
`x = random.randint(2, n - 1)` and `c = random.randint(1, n - 1)` are
explicit parameters, so every theorem about this function quantifies over all
outcomes of the random choices; `y` starts equal to `x` and `d` starts at 1
as in the source. -/
def pollard_rho (n x c maxIterations : Nat) : Option Nat :=
  if n % 2 = 0 then some 2
  else
    if pollardRhoLoop n c maxIterations x x 1 ≠ n
      then some (pollardRhoLoop n c maxIterations x x 1) else none

/-! ## `classical_factorization.pollard_rho_factorize` -/

/-- `pollard_rho_factorize(n)` for `n ≥ 0`, with an explicit recursion fuel
(`none` means the recursion did not complete within `fuel` nested calls — the
Python function has no such bound, so a result `some _` corresponds exactly to
a terminating Python run) and an explicit stream `s` of the `(x, c)` random
draws, consumed left to right; the returned `Nat` is the index of the first
unconsumed draw.  `sorted(factors)` is `List.mergeSort`. -/
def pollardRhoFactorizeAux (s : Nat → Nat × Nat) : Nat → Nat → Nat → Option (List Nat × Nat)
  | 0, _, _ => none
  | fuel + 1, idx, n =>
    if n < 2 then some ([], idx)
    else if n = 2 then some ([2], idx)
    else if ((pyRange 2 (min (intSqrt n + 1) 1000) 1).all fun i => n % i != 0) ∧
        n < 1000000 then some ([n], idx)
    else
      match pollard_rho n (s idx).1 (s idx).2 100000 with
      | none => some (if n < 10000 then tdNat n else [n], idx + 1)
      | some f =>
        if f = n then some (if n < 10000 then tdNat n else [n], idx + 1)
        else
          match pollardRhoFactorizeAux s fuel (idx + 1) f with
          | none => none
          | some (l₁, idx₁) =>
            match pollardRhoFactorizeAux s fuel idx₁ (n / f) with
            | none => none
            | some (l₂, idx₂) =>
              some ((l₁ ++ l₂).mergeSort (fun a b => decide (a ≤ b)), idx₂)

/-- `pollard_rho_factorize(n)` on Python integers: for `n < 2` (including all
negative inputs) the source returns `[]` at once, and for `n ≥ 2` it computes
on positive integers, so the `Int` behaviour factors through `Int.toNat`. -/
def pollard_rho_factorize (fuel : Nat) (s : Nat → Nat × Nat) (idx : Nat) (n : ℤ) :
    Option (List ℤ × Nat) :=
  (pollardRhoFactorizeAux s fuel idx n.toNat).map
    (fun r => (r.1.map (Nat.cast : ℕ → ℤ), r.2))

/-! ## `classical_factorization.fermat_factorization` -/

/-- `ceil(sqrt m)` for a natural number `m`. -/
def ceilSqrt (m : Nat) : Nat :=
  if intSqrt m * intSqrt m = m then intSqrt m else intSqrt m + 1

/-- The search loop of `fermat_factorization`
(`while iteration < max_iterations`).  Each iteration recomputes
`b_sq = a*a - n` for the current `a` (exactly the value the source carries
between iterations), takes the integer square root `b`, and returns
`(a - b, a + b)` when `b * b == b_sq`. -/
def fermatLoop (n : ℤ) : Nat → ℤ → Option (ℤ × ℤ)
  | 0, _ => none
  | it + 1, a =>
    if ((intSqrt (a * a - n).toNat : ℤ)) * ((intSqrt (a * a - n).toNat : ℤ)) =
        a * a - n
      then some (a - (intSqrt (a * a - n).toNat : ℤ), a + (intSqrt (a * a - n).toNat : ℤ))
    else fermatLoop n it (a + 1)

/-- `fermat_factorization(n, max_iterations)`.  Python `%` and `//` are floor
mod/division (`Int.fmod`, `Int.fdiv`).  The float `math.ceil(math.sqrt(n))`
and `int(math.sqrt(b_sq))` are modelled as exact integer square roots (the
design prescribes an exact integer square root with squared-back
verification); `math.sqrt` of a negative argument raises `ValueError`,
modelled as `.error` — this is reached exactly for odd `n < 0`, since the
even shortcut `(2, n // 2)` fires first. -/
def fermat_factorization (n : ℤ) (maxIterations : Nat) : Except String (Option (ℤ × ℤ)) :=
  if Int.fmod n 2 = 0 then .ok (some (2, Int.fdiv n 2))
  else if n < 0 then .error "math domain error"
  else .ok (fermatLoop n maxIterations (ceilSqrt n.toNat : ℤ))

/-! ## `classical_factorization.is_prime_simple` -/

/-- `is_prime_simple(n)`: trial division by 2 and by the odd divisors
`range(3, min(int(n**0.5) + 1, SMALL_PRIME_LIMIT), 2)`; the float
`int(n**0.5)` is modelled as the exact integer square root (faithful on the ranges where the
function is used and claimed, where `n ≤ 1000000`). -/
def is_prime_simple (n : Nat) : Bool :=
  if n < 2 then false
  else if n = 2 then true
  else if n % 2 = 0 then false
  else (pyRange 3 (min (intSqrt n + 1) 1000) 2).all fun i => n % i != 0

/-! ## `comparison.FactorizationResult` and the benchmark harness -/

/-- The `FactorizationResult` record of `comparison.py`; elapsed wall-clock
seconds are modelled as rationals. -/
structure FactorizationResult where
  number : ℤ
  algorithm : String
  factors : List ℤ
  time_taken : ℚ
  success : Bool

/-- `FactorizationResult.__init__`: `self.factors = factors if factors else []`
normalizes an absent (`None`) factor list to `[]`. -/
def mkResult (number : ℤ) (algorithm : String) (factors : Option (List ℤ))
    (t : ℚ) (success : Bool) : FactorizationResult :=
  ⟨number, algorithm, factors.getD [], t, success⟩

/-- `FactorizationResult.verify_factors()`: `False` on an empty factor list,
otherwise the left-to-right running product compared with `number`. -/
def FactorizationResult.verify_factors (r : FactorizationResult) : Bool :=
  if r.factors = [] then false
  else decide (r.factors.foldl (fun a b => a * b) 1 = r.number)

/-- `benchmark_algorithm(algorithm_func, number, algorithm_name)`.  The wrapped
algorithm is any function returning a factor list, `None`, or raising
(`.error`); the two wall-clock readings `t0 ≤ t1` taken around the call are
explicit parameters and `time_taken = t1 - t0`.  The result is successful
exactly when the algorithm returned a non-`None`, non-empty list
(`if factors and len(factors) > 0`); exceptions are caught
(`except Exception`) and produce a failed result. -/
def benchmark_algorithm (f : ℤ → Except String (Option (List ℤ))) (number : ℤ)
    (name : String) (t0 t1 : ℚ) : FactorizationResult :=
  match f number with
  | .ok (some (x :: xs)) => mkResult number name (some (x :: xs)) (t1 - t0) true
  | .ok (some []) => mkResult number name none (t1 - t0) false
  | .ok none => mkResult number name none (t1 - t0) false
  | .error _ => mkResult number name none (t1 - t0) false

/-- The speedup-cell computation of `print_comparison_summary` for one
algorithm row: `baseline? = number_results.get('trial_division')`,
`baseline = baseline_time.time_taken if baseline_time and baseline_time.success
else None`, and the cell is computed (`some ratio`) under
`if baseline and result.success and result.time_taken > 0` — note that the
float truthiness of `baseline` also rejects a present-and-successful baseline
whose recorded time is `0.0`; otherwise the cell is "N/A" (`none`). -/
def speedupCell (baseline? : Option FactorizationResult) (r : FactorizationResult) :
    Option ℚ :=
  match
    (match baseline? with
      | some b => if b.success then some b.time_taken else none
      | none => none) with
  | some bt =>
    if bt ≠ 0 ∧ r.success = true ∧ 0 < r.time_taken
      then some (bt / r.time_taken) else none
  | none => none


/-! ## A concrete run of `pollard_rho` that exhausts its iteration budget

The constants below exhibit an input and an outcome of the random draws on
which `pollard_rho(cP)` (with its default budget of 100000 iterations) keeps
`d == 1` through the whole loop and therefore returns 1:

* `cQ = 100003` is a prime larger than the iteration budget;
* `cT = 2 * 32 * cQ + 1` is a prime with `2 ^ cQ ≡ 1 (mod cT)`, so the order
  of 2 modulo `cT` is exactly `cQ`;
* `cP = 2 * cT + 1` is a prime (and `cP ≥ PRIME_THRESHOLD`), and
  `cU = 4 = 2 ^ ((cP - 1) / cT)` has order `cT` modulo `cP`
  (`cW` is its inverse modulo `cP`);
* the draws are `x = cX0 = (cU + cW) % cP` and `c = cC0 = cP - 2`, both in
  the ranges `randint` produces.

With `c ≡ -2`, the rho map is `x ↦ x² - 2`, which on `x = u + u⁻¹` acts as
`u ↦ u²`; the tortoise/hare difference at step `k` vanishes mod `cP` only if
`cT` divides `2^k ∓ 1`, i.e. only if `cQ ∣ k` — impossible for
`1 ≤ k ≤ 100000 < cQ`. -/

def cQ : Nat := 100003

def cT : Nat := 6400193

def cP : Nat := 12800387

def cU : Nat := 4

def cW : Nat := 3200097

def cX0 : Nat := 3200101

def cC0 : Nat := 12800385

/-- The invariant value of the rho walk modulo `cP`: `χ e = u^e + u⁻¹^e`. -/
def chiP (e : Nat) : ZMod cP :=
  (cU : ZMod cP) ^ e + (cW : ZMod cP) ^ e

/-- The outcome of the random draws on which `pollard_rho_factorize cP` fails
to terminate: every `pollard_rho` call draws `x = cX0`, `c = cC0`. -/
def rhoDrawsP : Nat → Nat × Nat :=
  fun _ => (cX0, cC0)

/-! ## Supporting lemmas -/

theorem isqrtGo_eq (m : Nat) :
    ∀ fuel r, r * r ≤ m → m < (r + 2 ^ fuel) * (r + 2 ^ fuel) →
      isqrtGo m fuel r = Nat.sqrt m := by
  intro fuel
  induction fuel with
  | zero =>
    intro r h1 h2
    rw [isqrtGo]
    have hle : r ≤ Nat.sqrt m := Nat.le_sqrt.mpr h1
    have hlt : Nat.sqrt m < r + 1 := Nat.sqrt_lt.mpr (by simpa using h2)
    omega
  | succ bit ih =>
    intro r h1 h2
    rw [isqrtGo]
    split
    · next hle =>
      refine ih (r + 2 ^ bit) hle ?_
      have e : 2 ^ (bit + 1) = 2 ^ bit * 2 := pow_succ 2 bit
      have e2 : r + 2 ^ (bit + 1) = r + 2 ^ bit + 2 ^ bit := by omega
      rw [e2] at h2
      exact h2
    · next hgt =>
      exact ih r h1 (not_le.mp hgt)

theorem intSqrt_eq (m : Nat) : intSqrt m = Nat.sqrt m := by
  rw [intSqrt]
  split
  · next h =>
    refine isqrtGo_eq m 64 0 (by simp) ?_
    have e : (0 + 2 ^ 64) * (0 + 2 ^ 64) = 2 ^ 128 := by norm_num
    omega
  · rfl

theorem stripFactor_snd_le (p n : Nat) : (stripFactor p n).2 ≤ n := by
  induction n using Nat.strong_induction_on with
  | _ n ih =>
    rw [stripFactor]
    split
    · next h =>
      exact le_trans
        (ih _ (Nat.div_lt_self h.2.1 (lt_of_lt_of_le one_lt_two h.1)))
        (Nat.div_le_self _ _)
    · exact le_refl n

theorem stripFactor_prod (p n : Nat) : (stripFactor p n).1.prod * (stripFactor p n).2 = n := by
  induction n using stripFactor.induct p with
  | case1 n h ih =>
    rw [stripFactor, dif_pos h, List.prod_cons, mul_assoc, ih]
    exact Nat.mul_div_cancel' (Nat.dvd_of_mod_eq_zero h.2.2)
  | case2 n h =>
    rw [stripFactor, dif_neg h]
    simp

theorem stripFactor_mem (p n : Nat) :
    ∀ x ∈ (stripFactor p n).1, x = p ∧ p ∣ n := by
  induction n using stripFactor.induct p with
  | case1 n h ih =>
    rw [stripFactor, dif_pos h]
    intro x hx
    rcases List.mem_cons.mp hx with rfl | hx
    · exact ⟨rfl, Nat.dvd_of_mod_eq_zero h.2.2⟩
    · exact ⟨(ih x hx).1, Nat.dvd_of_mod_eq_zero h.2.2⟩
  | case2 n h =>
    rw [stripFactor, dif_neg h]
    simp

theorem stripFactor_snd_pos (p n : Nat) (hn : 0 < n) : 0 < (stripFactor p n).2 := by
  induction n using stripFactor.induct p with
  | case1 n h ih =>
    rw [stripFactor, dif_pos h]
    exact ih (Nat.div_pos (Nat.le_of_dvd h.2.1 (Nat.dvd_of_mod_eq_zero h.2.2))
      (lt_of_lt_of_le Nat.zero_lt_two h.1))
  | case2 n h =>
    rw [stripFactor, dif_neg h]
    exact hn

theorem stripFactor_snd_dvd (p n : Nat) : (stripFactor p n).2 ∣ n := by
  induction n using stripFactor.induct p with
  | case1 n h ih =>
    rw [stripFactor, dif_pos h]
    exact dvd_trans ih (Nat.div_dvd_of_dvd (Nat.dvd_of_mod_eq_zero h.2.2))
  | case2 n h =>
    rw [stripFactor, dif_neg h]

theorem stripFactor_not_dvd (p n : Nat) (hp : 2 ≤ p) (hn : 0 < n) :
    ¬ p ∣ (stripFactor p n).2 := by
  induction n using stripFactor.induct p with
  | case1 n h ih =>
    rw [stripFactor, dif_pos h]
    exact ih (Nat.div_pos (Nat.le_of_dvd h.2.1 (Nat.dvd_of_mod_eq_zero h.2.2))
      (lt_of_lt_of_le Nat.zero_lt_two h.1))
  | case2 n h =>
    rw [stripFactor, dif_neg h]
    intro hdvd
    exact h ⟨hp, hn, Nat.mod_eq_zero_of_dvd hdvd⟩

/-- Full correctness of the odd-divisor loop, under the invariant that every
prime factor of the running value is at least the current divisor `i`. -/
theorem oddFactorLoop_correct :
    ∀ n i, 1 ≤ n → 3 ≤ i → i % 2 = 1 →
      (∀ q, Nat.Prime q → q ∣ n → i ≤ q) →
      (oddFactorLoop n i).1.prod * (oddFactorLoop n i).2 = n ∧
      (∀ x ∈ (oddFactorLoop n i).1, Nat.Prime x) ∧
      (∀ x ∈ (oddFactorLoop n i).1, i ≤ x) ∧
      List.Sorted (· ≤ ·) (oddFactorLoop n i).1 ∧
      ((oddFactorLoop n i).2 = 1 ∨
        (Nat.Prime (oddFactorLoop n i).2 ∧ i ≤ (oddFactorLoop n i).2 ∧
          ∀ x ∈ (oddFactorLoop n i).1, x < (oddFactorLoop n i).2)) := by
  intro n i
  induction n, i using oddFactorLoop.induct with
  | case1 n i hguard ih =>
    intro hn hi hodd hfac
    have hp2 : 2 ≤ i := le_trans (by norm_num) hi
    have hs_pos : 0 < (stripFactor i n).2 := stripFactor_snd_pos i n hn
    have hs_dvd : (stripFactor i n).2 ∣ n := stripFactor_snd_dvd i n
    have hs_not : ¬ i ∣ (stripFactor i n).2 := stripFactor_not_dvd i n hp2 hn
    -- the invariant for the recursive call at i + 2
    have hfac' : ∀ q, Nat.Prime q → q ∣ (stripFactor i n).2 → i + 2 ≤ q := by
      intro q hq hqdvd
      have hqn : q ∣ n := dvd_trans hqdvd hs_dvd
      have hqi : i ≤ q := hfac q hq hqn
      have hqne : q ≠ i := by rintro rfl; exact hs_not hqdvd
      have hq2 : q ≠ 2 := by omega
      have hqodd : q % 2 = 1 := Nat.odd_iff.mp (hq.odd_of_ne_two hq2)
      omega
    have IH := ih hs_pos (by omega) (by omega) hfac'
    have hmem := stripFactor_mem i n
    have hiprime : i ∣ n → Nat.Prime i := by
      intro hidvd
      have hmf := Nat.minFac_prime (show i ≠ 1 by omega)
      have h2 : i ≤ Nat.minFac i := hfac _ hmf (dvd_trans (Nat.minFac_dvd i) hidvd)
      have h3 : Nat.minFac i ≤ i := Nat.minFac_le (by omega)
      exact Nat.prime_def_minFac.mpr ⟨hp2, le_antisymm h3 h2⟩
    rw [oddFactorLoop, dif_pos hguard]
    refine ⟨?_, ?_, ?_, ?_, ?_⟩
    · rw [List.prod_append, mul_assoc, IH.1, stripFactor_prod]
    · intro x hx
      rcases List.mem_append.mp hx with hx | hx
      · rcases hmem x hx with ⟨rfl, hdvd⟩
        exact hiprime hdvd
      · exact IH.2.1 x hx
    · intro x hx
      rcases List.mem_append.mp hx with hx | hx
      · exact (hmem x hx).1 ▸ le_refl i
      · exact le_trans (by omega) (IH.2.2.1 x hx)
    · refine List.pairwise_append.mpr ⟨?_, IH.2.2.2.1, ?_⟩
      · rw [List.eq_replicate_of_mem (fun b hb => (hmem b hb).1)]
        exact List.pairwise_replicate.mpr (Or.inr (le_refl i))
      · intro x hx y hy
        have hxi : x = i := (hmem x hx).1
        have hyi : i + 2 ≤ y := IH.2.2.1 y hy
        omega
    · rcases IH.2.2.2.2 with h1 | ⟨hprime, hge, hlt⟩
      · exact Or.inl h1
      · right
        refine ⟨hprime, le_trans (by omega) hge, ?_⟩
        intro x hx
        rcases List.mem_append.mp hx with hx | hx
        · have := (hmem x hx).1
          omega
        · exact hlt x hx
  | case2 n i hguard =>
    intro hn hi hodd hfac
    rw [oddFactorLoop, dif_neg hguard]
    refine ⟨by simp, by simp, by simp, List.sorted_nil, ?_⟩
    rcases eq_or_lt_of_le hn with h1 | h1
    · exact Or.inl h1.symm
    · right
      have hnp : Nat.Prime n := by
        by_contra hnp
        have hmf := Nat.minFac_prime (by omega : n ≠ 1)
        have hle := hfac _ hmf (Nat.minFac_dvd n)
        have hsq := Nat.minFac_sq_le_self (by omega) hnp
        rw [pow_two] at hsq
        exact hguard (le_trans (Nat.mul_le_mul hle hle) hsq)
      exact ⟨hnp, hfac n hnp dvd_rfl, by simp⟩

theorem natAbs_fmod_lt (a : ℤ) {b : ℤ} (hb : b ≠ 0) :
    (Int.fmod a b).natAbs < b.natAbs := by
  rcases lt_trichotomy b 0 with h | h | h
  · obtain ⟨m, rfl⟩ : ∃ m : ℕ, b = Int.negSucc m := by
      cases b with
      | ofNat k => exact absurd h (Int.ofNat_nonneg k).not_lt
      | negSucc m => exact ⟨m, rfl⟩
    cases a with
    | ofNat k =>
      cases k with
      | zero =>
        have e : Int.fmod (Int.ofNat 0) (Int.negSucc m) = 0 := rfl
        rw [e]
        simpa using Nat.succ_pos m
      | succ j =>
        have e : Int.fmod (Int.ofNat (j + 1)) (Int.negSucc m) =
            Int.subNatNat (j % (m + 1)) m := rfl
        rw [e, Int.subNatNat_eq_coe]
        have hj : j % (m + 1) < m + 1 := Nat.mod_lt _ (Nat.succ_pos m)
        rw [Int.natAbs_negSucc]
        omega
    | negSucc k =>
      have e : Int.fmod (Int.negSucc k) (Int.negSucc m) =
          -Int.ofNat ((k + 1) % (m + 1)) := rfl
      rw [e, Int.natAbs_neg, Int.natAbs_negSucc]
      exact Nat.mod_lt _ (Nat.succ_pos m)
  · exact absurd h hb
  · have h1 := Int.fmod_nonneg' a h
    have h2 := Int.fmod_lt_of_pos a h
    omega

theorem gcd_zero_right (a : ℤ) : ShorFact.gcd a 0 = a := by
  rw [ShorFact.gcd]
  simp

/-- On non-negative operands the Python Euclidean loop computes `Nat.gcd`. -/
theorem gcd_natCast_natCast : ∀ (k m : ℕ), ShorFact.gcd (m : ℤ) (k : ℤ) = (Nat.gcd m k : ℤ) := by
  intro k
  induction k using Nat.strong_induction_on with
  | _ k ih =>
    intro m
    rcases Nat.eq_zero_or_pos k with hk | hk
    · subst hk
      simpa using gcd_zero_right (m : ℤ)
    · rw [ShorFact.gcd]
      rw [dif_neg (by exact_mod_cast hk.ne')]
      rw [Int.fmod_eq_emod _ (by positivity), ← Int.natCast_mod]
      rw [ih (m % k) (Nat.mod_lt _ hk)]
      rw [Nat.gcd_comm k (m % k), ← Nat.gcd_rec k m, Nat.gcd_comm k m]

/-- Full correctness of the `Nat`-level body of `trial_division`. -/
theorem tdNat_correct (n : Nat) (hn : 2 ≤ n) :
    (tdNat n).prod = n ∧ (∀ x ∈ tdNat n, Nat.Prime x) ∧
    List.Sorted (· ≤ ·) (tdNat n) ∧ (∀ x ∈ tdNat n, 2 ≤ x) := by
  have hS_mem := stripFactor_mem 2 n
  have hS_pos := stripFactor_snd_pos 2 n (by omega)
  have hS_dvd := stripFactor_snd_dvd 2 n
  have hS_not := stripFactor_not_dvd 2 n le_rfl (by omega)
  have hS_prod := stripFactor_prod 2 n
  have hS_sorted : List.Sorted (· ≤ ·) (stripFactor 2 n).1 := by
    rw [List.eq_replicate_of_mem (fun b hb => (hS_mem b hb).1)]
    exact List.pairwise_replicate.mpr (Or.inr (le_refl 2))
  have hinv : ∀ q, Nat.Prime q → q ∣ (stripFactor 2 n).2 → 3 ≤ q := by
    intro q hq hqdvd
    have h2 := hq.two_le
    have : q ≠ 2 := by rintro rfl; exact hS_not hqdvd
    omega
  have HL := oddFactorLoop_correct (stripFactor 2 n).2 3 hS_pos le_rfl rfl hinv
  by_cases hbig : 2 < (oddFactorLoop (stripFactor 2 n).2 3).2
  · obtain ⟨hprime, h3le, hlt⟩ :
        Nat.Prime (oddFactorLoop (stripFactor 2 n).2 3).2 ∧
        3 ≤ (oddFactorLoop (stripFactor 2 n).2 3).2 ∧
        ∀ x ∈ (oddFactorLoop (stripFactor 2 n).2 3).1,
          x < (oddFactorLoop (stripFactor 2 n).2 3).2 := by
      rcases HL.2.2.2.2 with h1 | h1
      · omega
      · exact h1
    rw [tdNat, if_pos hbig]
    refine ⟨?_, ?_, ?_, ?_⟩
    · rw [List.prod_append, List.prod_append, List.prod_singleton, mul_assoc, HL.1, hS_prod]
    · intro x hx
      rcases List.mem_append.mp hx with hx | hx
      · rcases List.mem_append.mp hx with hx | hx
        · exact (hS_mem x hx).1 ▸ Nat.prime_two
        · exact HL.2.1 x hx
      · rw [List.mem_singleton.mp hx]
        exact hprime
    · refine List.pairwise_append.mpr ⟨?_, ?_, ?_⟩
      · refine List.pairwise_append.mpr ⟨hS_sorted, HL.2.2.2.1, ?_⟩
        intro x hx y hy
        have := (hS_mem x hx).1
        have := HL.2.2.1 y hy
        omega
      · simp
      · intro x hx y hy
        rw [List.mem_singleton.mp hy]
        rcases List.mem_append.mp hx with hx | hx
        · have := (hS_mem x hx).1
          omega
        · exact le_of_lt (hlt x hx)
    · intro x hx
      rcases List.mem_append.mp hx with hx | hx
      · rcases List.mem_append.mp hx with hx | hx
        · have := (hS_mem x hx).1
          omega
        · exact le_trans (by norm_num) (HL.2.2.1 x hx)
      · rw [List.mem_singleton.mp hx]
        omega
  · have h1 : (oddFactorLoop (stripFactor 2 n).2 3).2 = 1 := by
      rcases HL.2.2.2.2 with h1 | h1
      · exact h1
      · omega
    rw [tdNat, if_neg hbig, List.append_nil]
    refine ⟨?_, ?_, ?_, ?_⟩
    · have := HL.1
      rw [h1, mul_one] at this
      rw [List.prod_append, this, hS_prod]
    · intro x hx
      rcases List.mem_append.mp hx with hx | hx
      · exact (hS_mem x hx).1 ▸ Nat.prime_two
      · exact HL.2.1 x hx
    · refine List.pairwise_append.mpr ⟨hS_sorted, HL.2.2.2.1, ?_⟩
      intro x hx y hy
      have := (hS_mem x hx).1
      have := HL.2.2.1 y hy
      omega
    · intro x hx
      rcases List.mem_append.mp hx with hx | hx
      · have := (hS_mem x hx).1
        omega
      · exact le_trans (by norm_num) (HL.2.2.1 x hx)

/-! ## Claim C1 -/

/-- C1: for every integer `n ≥ 2`, `trial_division(n)` returns a list whose
product equals `n`, every element of which is prime, in ascending sorted
order; for `n < 2` it returns the empty list. -/
theorem trial_division_correct (n : ℤ) :
    (2 ≤ n →
      (trial_division n).prod = n ∧
      (∀ x ∈ trial_division n, Prime x) ∧
      List.Sorted (· ≤ ·) (trial_division n)) ∧
    (n < 2 → trial_division n = []) := by
  constructor
  · intro hn
    rw [trial_division, if_neg (not_lt.mpr hn)]
    have h2 : 2 ≤ n.toNat := by omega
    obtain ⟨hprod, hprime, hsorted, _⟩ := tdNat_correct n.toNat h2
    refine ⟨?_, ?_, ?_⟩
    · rw [← Nat.cast_list_prod, hprod, Int.toNat_of_nonneg (by omega)]
    · intro x hx
      obtain ⟨m, hm, rfl⟩ := List.mem_map.mp hx
      rw [Int.prime_iff_natAbs_prime]
      simpa using hprime m hm
    · exact List.Pairwise.map _ (fun a b hab => Nat.cast_le.mpr hab) hsorted
  · intro hn
    rw [trial_division, if_pos hn]

/-- Witness for `trial_division_correct`, at the concrete input 15. -/
theorem trial_division_correct_witness :
    (2 ≤ (15:ℤ)) ∧
    ((trial_division 15).prod = 15 ∧ (∀ x ∈ trial_division 15, Prime x) ∧
      List.Sorted (· ≤ ·) (trial_division 15)) :=
  ⟨by norm_num, (trial_division_correct 15).1 (by norm_num)⟩

/-! ## Claim C8 -/

/-- C8 counterexample: on the integer operands `(4, -6)` the Python gcd
returns `-2` — a negative result — and is not symmetric, refuting
"returns the non-negative greatest common divisor" and
"`gcd(a, b) == gcd(b, a)`" for arbitrary integers. -/
theorem gcd_int_counterexample :
    ShorFact.gcd 4 (-6) = -2 ∧ ShorFact.gcd (-6) 4 = 2 ∧
    ¬ 0 ≤ ShorFact.gcd 4 (-6) ∧ ShorFact.gcd 4 (-6) ≠ ShorFact.gcd (-6) 4 := by
  have h1 : ShorFact.gcd 4 (-6) = -2 := by simp [ShorFact.gcd]
  have h2 : ShorFact.gcd (-6) 4 = 2 := by simp [ShorFact.gcd]
  refine ⟨h1, h2, ?_, ?_⟩
  · rw [h1]; norm_num
  · rw [h1, h2]; norm_num

/-- C8 (amended): on non-negative operands `gcd` returns the non-negative
greatest common divisor and is symmetric; `gcd(a, 0) = a` holds for every
integer `a` (hence the result is negative for negative `a`), and
`gcd(0, 0) = 0`. -/
theorem gcd_spec_amended :
    (∀ a b : ℤ, 0 ≤ a → 0 ≤ b → ShorFact.gcd a b = (Int.gcd a b : ℤ)) ∧
    (∀ a b : ℤ, 0 ≤ a → 0 ≤ b → ShorFact.gcd a b = ShorFact.gcd b a) ∧
    (∀ a : ℤ, ShorFact.gcd a 0 = a) ∧
    ShorFact.gcd 0 0 = 0 := by
  have key : ∀ a b : ℤ, 0 ≤ a → 0 ≤ b → ShorFact.gcd a b = (Int.gcd a b : ℤ) := by
    intro a b ha hb
    obtain ⟨m, rfl⟩ := Int.eq_ofNat_of_zero_le ha
    obtain ⟨k, rfl⟩ := Int.eq_ofNat_of_zero_le hb
    rw [show ((m : ℕ) : ℤ).gcd ((k : ℕ) : ℤ) = Nat.gcd m k from by
      simp [Int.gcd]]
    exact gcd_natCast_natCast k m
  refine ⟨key, ?_, gcd_zero_right, gcd_zero_right 0⟩
  intro a b ha hb
  rw [key a b ha hb, key b a hb ha, Int.gcd_comm]

/-- Witness for `gcd_spec_amended`, at the concrete operands `(4, 6)` and
`(-5, 0)`. -/
theorem gcd_spec_amended_witness :
    ShorFact.gcd 4 6 = (Int.gcd 4 6 : ℤ) ∧
    ShorFact.gcd 4 6 = ShorFact.gcd 6 4 ∧ ShorFact.gcd (-5) 0 = -5 :=
  ⟨gcd_spec_amended.1 4 6 (by norm_num) (by norm_num),
   gcd_spec_amended.2.1 4 6 (by norm_num) (by norm_num),
   gcd_spec_amended.2.2.1 (-5)⟩

/-! ## Claim C4 -/

/-- Whatever the loop returns is a positive divisor of `n`, provided the
incoming `d` is one. -/
theorem pollardRhoLoop_dvd (n c : Nat) (hn : 0 < n) :
    ∀ fuel x y d, d ∣ n → 1 ≤ d →
      pollardRhoLoop n c fuel x y d ∣ n ∧ 1 ≤ pollardRhoLoop n c fuel x y d := by
  intro fuel
  induction fuel with
  | zero =>
    intro x y d hd h1
    rw [pollardRhoLoop]
    exact ⟨hd, h1⟩
  | succ fuel ih =>
    intro x y d hd h1
    rw [pollardRhoLoop]
    split
    · exact ⟨hd, h1⟩
    · exact ih _ _ _ (Nat.gcd_dvd_right _ n) (Nat.gcd_pos_of_pos_right _ hn)

/-- Every `some` result of `pollard_rho` is a positive divisor of `n`. -/
theorem pollard_rho_some_dvd {n x c it f : Nat} (hn : 0 < n)
    (h : pollard_rho n x c it = some f) : f ∣ n ∧ 1 ≤ f := by
  rw [pollard_rho] at h
  split at h
  · next heven =>
    obtain rfl : (2 : Nat) = f := Option.some.inj h
    exact ⟨Nat.dvd_of_mod_eq_zero heven, by norm_num⟩
  · split at h
    · obtain rfl := Option.some.inj h
      exact pollardRhoLoop_dvd n c hn it x x 1 (one_dvd n) le_rfl
    · exact absurd h (by simp)

/-- C4 (amended): for even `n`, `pollard_rho` returns 2 immediately; for odd
`n ≥ 3` every returned value `d` is a divisor of `n` with `1 ≤ d < n` — but
`d = 1` is possible: it is returned exactly when the iteration budget is
exhausted while the running gcd is still 1 (only a discovered gcd equal to
`n` is reported as `None`). -/
theorem pollard_rho_spec :
    (∀ n x c it, n % 2 = 0 → pollard_rho n x c it = some 2) ∧
    (∀ n x c it d, n % 2 = 1 → 3 ≤ n → pollard_rho n x c it = some d →
      d ∣ n ∧ 1 ≤ d ∧ d < n) := by
  constructor
  · intro n x c it h
    rw [pollard_rho, if_pos h]
  · intro n x c it d hodd h3 h
    obtain ⟨hdvd, hpos⟩ := pollard_rho_some_dvd (show 0 < n by omega) h
    rw [pollard_rho, if_neg (show ¬ n % 2 = 0 by omega)] at h
    split at h
    · next hne =>
      obtain rfl := Option.some.inj h
      exact ⟨hdvd, hpos, lt_of_le_of_ne (Nat.le_of_dvd (by omega) hdvd) hne⟩
    · exact absurd h (by simp)

/-- Witness for `pollard_rho_spec`: the even input 4 yields 2, and on input 9
with draws `x = 2, c = 1` and budget 1 the returned factor 3 is a non-trivial
divisor. -/
theorem pollard_rho_spec_witness :
    pollard_rho 4 3 1 5 = some 2 ∧ (3 ∣ 9 ∧ 1 ≤ 3 ∧ 3 < 9) :=
  ⟨pollard_rho_spec.1 4 3 1 5 (by norm_num),
   pollard_rho_spec.2 9 2 1 1 3 (by norm_num) (by norm_num) (by decide)⟩

/-- C4 counterexample: on the odd input 15 with the in-range draws
`x = 2 ∈ [2, 14]`, `c = 2 ∈ [1, 14]` and iteration budget 1, the loop
exhausts its budget with `d == 1` and `pollard_rho` returns 1 — neither
`None` nor a non-trivial factor. -/
theorem pollard_rho_counterexample :
    pollard_rho 15 2 2 1 = some 1 ∧ (15:Nat) % 2 = 1 ∧ 3 ≤ 15 ∧
    2 ≤ 2 ∧ 2 ≤ 15 - 1 ∧ 1 ≤ 2 ∧ 2 ≤ 15 - 1 := by
  exact ⟨by decide, by decide, by decide, by decide, by decide, by decide, by decide⟩

/-! ## Claim C2 -/

/-- Any completed run of the recursive factorizer returns a list of values
`≥ 2` whose product is the input. -/
theorem pollardRhoFactorizeAux_spec (s : Nat → Nat × Nat) :
    ∀ fuel idx n l idx', 1 ≤ n →
      pollardRhoFactorizeAux s fuel idx n = some (l, idx') →
      l.prod = n ∧ ∀ x ∈ l, 2 ≤ x := by
  intro fuel
  induction fuel with
  | zero =>
    intro idx n l idx' hn h
    exact absurd h (by rw [pollardRhoFactorizeAux]; simp)
  | succ fuel ih =>
    intro idx n l idx' hn h
    rw [pollardRhoFactorizeAux] at h
    split at h
    · next hlt =>
      simp only [Option.some.injEq, Prod.mk.injEq] at h
      obtain ⟨rfl, rfl⟩ := h
      simp only [List.prod_nil]
      exact ⟨by omega, by simp⟩
    · next hlt =>
      split at h
      · next heq =>
        simp only [Option.some.injEq, Prod.mk.injEq] at h
        obtain ⟨rfl, rfl⟩ := h
        subst heq
        exact ⟨by simp, by simp⟩
      · next hne2 =>
        have hn3 : 3 ≤ n := by omega
        split at h
        · simp only [Option.some.injEq, Prod.mk.injEq] at h
          obtain ⟨rfl, rfl⟩ := h
          exact ⟨by simp, by simp; omega⟩
        · split at h
          · -- pollard_rho returned None: fall back
            simp only [Option.some.injEq, Prod.mk.injEq] at h
            obtain ⟨rfl, rfl⟩ := h
            split
            · next hsmall =>
              obtain ⟨hprod, _, _, hge⟩ := tdNat_correct n (by omega)
              exact ⟨hprod, hge⟩
            · exact ⟨by simp, by simp; omega⟩
          · next f hpr =>
            split at h
            · -- the factor equals n: fall back
              simp only [Option.some.injEq, Prod.mk.injEq] at h
              obtain ⟨rfl, rfl⟩ := h
              split
              · next hsmall =>
                obtain ⟨hprod, _, _, hge⟩ := tdNat_correct n (by omega)
                exact ⟨hprod, hge⟩
              · exact ⟨by simp, by simp; omega⟩
            · next hfn =>
              obtain ⟨hfdvd, hfpos⟩ := pollard_rho_some_dvd (show 0 < n by omega) hpr
              have hfle : f ≤ n := Nat.le_of_dvd (by omega) hfdvd
              split at h
              · exact absurd h (by simp)
              · next l₁ idx₁ h1 =>
                split at h
                · exact absurd h (by simp)
                · next l₂ idx₂ h2 =>
                  simp only [Option.some.injEq, Prod.mk.injEq] at h
                  obtain ⟨rfl, rfl⟩ := h
                  obtain ⟨hp1, hg1⟩ := ih (idx + 1) f l₁ idx₁ hfpos h1
                  obtain ⟨hp2, hg2⟩ := ih idx₁ (n / f) l₂ idx₂
                    (Nat.div_pos hfle (by omega)) h2
                  have hperm := List.mergeSort_perm (l₁ ++ l₂) (fun a b => decide (a ≤ b))
                  constructor
                  · rw [hperm.prod_eq, List.prod_append, hp1, hp2]
                    exact Nat.mul_div_cancel' hfdvd
                  · intro x hx
                    rcases List.mem_append.mp (hperm.mem_iff.mp hx) with hx | hx
                    · exact hg1 x hx
                    · exact hg2 x hx

/-- Any pair returned by the Fermat search loop multiplies to `n`. -/
theorem fermatLoop_prod (n : ℤ) :
    ∀ it a pr, fermatLoop n it a = some pr → pr.1 * pr.2 = n := by
  intro it
  induction it with
  | zero =>
    intro a pr h
    exact absurd h (by rw [fermatLoop]; simp)
  | succ it ih =>
    intro a pr h
    rw [fermatLoop] at h
    split at h
    · next hb =>
      obtain rfl := Option.some.inj h
      linear_combination -hb
    · exact ih _ _ h

/-- Any pair returned by `fermat_factorization` multiplies to `n`
(no condition on `n` beyond evenness handling: even `n` yields
`2 * (n // 2) = n`). -/
theorem fermat_factorization_prod {n a b : ℤ} {it : Nat}
    (h : fermat_factorization n it = .ok (some (a, b))) : a * b = n := by
  rw [fermat_factorization] at h
  split at h
  · next heven =>
    have hdvd : (2:ℤ) ∣ n := by
      rw [Int.fmod_eq_emod n (by norm_num : (0:ℤ) ≤ 2)] at heven
      exact Int.dvd_of_emod_eq_zero heven
    obtain ⟨k, rfl⟩ := hdvd
    simp only [Except.ok.injEq, Option.some.injEq, Prod.mk.injEq] at h
    obtain ⟨rfl, rfl⟩ := h
    rw [Int.mul_fdiv_cancel_left _ (by norm_num)]
  · split at h
    · exact absurd h (by simp)
    · simp only [Except.ok.injEq] at h
      simpa using fermatLoop_prod n it _ (a, b) h

/-- C2 (amended): whenever `pollard_rho_factorize` completes with a factor
list for `n ≥ 2`, the product of the list is `n` and no element equals 1
(indeed all elements are at least 2); whenever `fermat_factorization` returns
a pair for `n ≥ 2`, the product of the pair is `n` — but a Fermat factor may
equal 1 (for `n = 2` the pair is `(2, 1)`, and for a prime `n` reached within
the budget the pair is `(1, n)`). -/
theorem factorization_success_spec :
    (∀ fuel s idx (n : ℤ) l idx', 2 ≤ n →
      pollard_rho_factorize fuel s idx n = some (l, idx') →
      l.prod = n ∧ (1:ℤ) ∉ l) ∧
    (∀ (n : ℤ) it a b, 2 ≤ n →
      fermat_factorization n it = .ok (some (a, b)) → a * b = n) := by
  constructor
  · intro fuel s idx n l idx' hn h
    rw [pollard_rho_factorize] at h
    cases haux : pollardRhoFactorizeAux s fuel idx n.toNat with
    | none => rw [haux] at h; exact absurd h (by simp)
    | some r =>
      obtain ⟨l₀, i₀⟩ := r
      rw [haux] at h
      simp only [Option.map_some', Option.some.injEq, Prod.mk.injEq] at h
      obtain ⟨rfl, rfl⟩ := h
      obtain ⟨hprod, hge⟩ :=
        pollardRhoFactorizeAux_spec s fuel idx n.toNat l₀ i₀ (by omega) haux
      constructor
      · rw [← Nat.cast_list_prod, hprod, Int.toNat_of_nonneg (by omega)]
      · intro hmem
        obtain ⟨m, hm, hcast⟩ := List.mem_map.mp hmem
        have := hge m hm
        omega
  · intro n it a b _ h
    exact fermat_factorization_prod h

/-- Witness for `factorization_success_spec`: Pollard's rho factorizer on
input 2 returns `[2]`, and Fermat on input 9 returns `(3, 3)`. -/
theorem factorization_success_spec_witness :
    (([2] : List ℤ).prod = 2 ∧ (1:ℤ) ∉ ([2] : List ℤ)) ∧ (3:ℤ) * 3 = 9 :=
  ⟨factorization_success_spec.1 1 (fun _ => (2, 1)) 0 2 [2] 0 (by norm_num) rfl,
   factorization_success_spec.2 9 100000 3 3 (by norm_num) rfl⟩

/-- C2 counterexample: on the (prime, odd) input `n = 3`, Fermat's method
succeeds within its default budget but returns the pair `(1, 3)` — a factor
equal to 1, refuting "no returned factor equals 1". -/
theorem fermat_one_factor_counterexample :
    fermat_factorization 3 100000 = .ok (some (1, 3)) ∧ (2:ℤ) ≤ 3 :=
  ⟨rfl, by norm_num⟩

/-! ## Claim C5 -/

/-- C5 (amended): for `n < 2`, `trial_division` and `pollard_rho_factorize`
return the empty list without raising; `fermat_factorization` has no `n < 2`
guard — even `n < 2` yields the pair `(2, n // 2)`, `n = 1` yields `(1, 1)`,
and odd negative `n` raises (`ValueError` from `math.sqrt`). -/
theorem invalid_input_spec :
    (∀ n : ℤ, n < 2 → trial_division n = []) ∧
    (∀ fuel (s : Nat → Nat × Nat) idx (n : ℤ), n < 2 → 1 ≤ fuel →
      pollard_rho_factorize fuel s idx n = some ([], idx)) ∧
    (∀ (n : ℤ) it, n < 2 → Int.fmod n 2 = 0 →
      fermat_factorization n it = .ok (some (2, Int.fdiv n 2))) ∧
    (∀ it, 1 ≤ it → fermat_factorization 1 it = .ok (some (1, 1))) ∧
    (∀ (n : ℤ) it, n < 0 → Int.fmod n 2 ≠ 0 →
      fermat_factorization n it = .error "math domain error") := by
  refine ⟨?_, ?_, ?_, ?_, ?_⟩
  · intro n hn
    rw [trial_division, if_pos hn]
  · intro fuel s idx n hn hfuel
    obtain ⟨f, rfl⟩ : ∃ f, fuel = f + 1 := ⟨fuel - 1, by omega⟩
    rw [pollard_rho_factorize, pollardRhoFactorizeAux]
    rw [if_pos (show n.toNat < 2 by omega)]
    rfl
  · intro n it hn heven
    rw [fermat_factorization, if_pos heven]
  · intro it hit
    obtain ⟨i, rfl⟩ : ∃ i, it = i + 1 := ⟨it - 1, by omega⟩
    rfl
  · intro n it hn hodd
    rw [fermat_factorization, if_neg hodd, if_pos hn]

/-- Witness for `invalid_input_spec` at the concrete inputs
`-1`, `0`, `1`, `-3`. -/
theorem invalid_input_spec_witness :
    trial_division (-1) = [] ∧
    pollard_rho_factorize 1 (fun _ => (2, 1)) 0 0 = some ([], 0) ∧
    fermat_factorization 0 100000 = .ok (some (2, Int.fdiv 0 2)) ∧
    fermat_factorization 1 100000 = .ok (some (1, 1)) ∧
    fermat_factorization (-3) 100000 = .error "math domain error" :=
  ⟨invalid_input_spec.1 (-1) (by norm_num),
   invalid_input_spec.2.1 1 (fun _ => (2, 1)) 0 0 (by norm_num) le_rfl,
   invalid_input_spec.2.2.1 0 100000 (by norm_num) (by decide),
   invalid_input_spec.2.2.2.1 100000 (by norm_num),
   invalid_input_spec.2.2.2.2 (-3) 100000 (by norm_num) (by decide)⟩

/-- C5 counterexample: for the invalid inputs `n = 0` and `n = 1` (both
`< 2`), `fermat_factorization` does not return a no-result outcome — it
returns the pairs `(2, 0)` and `(1, 1)`. -/
theorem fermat_invalid_input_counterexample :
    fermat_factorization 0 100000 = .ok (some (2, 0)) ∧
    fermat_factorization 1 100000 = .ok (some (1, 1)) ∧
    (0:ℤ) < 2 ∧ (1:ℤ) < 2 :=
  ⟨rfl, rfl, by norm_num, by norm_num⟩

/-! ## Claim C10 -/

theorem pyRange_step2_mem {s e x : Nat} (h : x ∈ pyRange s e 2) :
    s ≤ x ∧ x < e ∧ x % 2 = s % 2 := by
  rw [pyRange] at h
  obtain ⟨i, hi, rfl⟩ := List.mem_range'.mp h
  omega

theorem pyRange_step2_mem' {s e x : Nat} (h1 : s ≤ x) (h2 : x < e)
    (h3 : x % 2 = s % 2) : x ∈ pyRange s e 2 := by
  rw [pyRange]
  refine List.mem_range'.mpr ⟨(x - s) / 2, ?_, ?_⟩ <;> omega

/-- C10: for every `0 ≤ n ≤ 1000000` the bounded trial-division heuristic
`is_prime_simple` is an exact primality test (the odd-divisor window below
`SMALL_PRIME_LIMIT = 1000` is exhaustive for `n ≤ 1000²`). -/
theorem is_prime_simple_exact (n : Nat) (hn : n ≤ 1000000) :
    is_prime_simple n = true ↔ Nat.Prime n := by
  rw [is_prime_simple]
  split
  · next hlt =>
    simp only [Bool.false_eq_true, false_iff]
    intro hp
    exact absurd hp.two_le (by omega)
  · next hge =>
    split
    · next heq =>
      subst heq
      simpa using Nat.prime_two
    · next hne =>
      split
      · next heven =>
        simp only [Bool.false_eq_true, false_iff]
        intro hp
        rcases hp.eq_one_or_self_of_dvd 2 (Nat.dvd_of_mod_eq_zero heven) with h | h
        · omega
        · omega
      · next hodd =>
        have hn2 : 2 ≤ n := by omega
        rw [List.all_eq_true]
        constructor
        · intro hall
          rw [Nat.prime_def_le_sqrt]
          refine ⟨hn2, ?_⟩
          intro m hm2 hmsqrt hdvd
          rcases Nat.even_or_odd m with hme | hmo
          · obtain ⟨k, rfl⟩ := hme
            have h2n : 2 ∣ n := dvd_trans ⟨k, (two_mul k).symm⟩ hdvd
            have := Nat.mod_eq_zero_of_dvd h2n
            omega
          · obtain ⟨j, rfl⟩ := hmo
            have hsqrt_le : Nat.sqrt n ≤ 1000 := by
              have h1 := Nat.sqrt_le_sqrt hn
              have h2 : Nat.sqrt 1000000 = 1000 := by norm_num
              omega
            have hmem : (2 * j + 1) ∈ pyRange 3 (min (intSqrt n + 1) 1000) 2 := by
              apply pyRange_step2_mem' (by omega)
              · rw [intSqrt_eq]
                omega
              · omega
            have := hall _ hmem
            rw [bne_iff_ne] at this
            exact this (Nat.mod_eq_zero_of_dvd hdvd)
        · intro hp i hi
          obtain ⟨h3i, hiB, hipar⟩ := pyRange_step2_mem hi
          rw [intSqrt_eq] at hiB
          rw [bne_iff_ne]
          intro h0
          rcases hp.eq_one_or_self_of_dvd i (Nat.dvd_of_mod_eq_zero h0) with h | h
          · omega
          · have hlt : Nat.sqrt n < n := Nat.sqrt_lt_self (by omega)
            omega

/-- Witness for `is_prime_simple_exact` at the concrete input 97. -/
theorem is_prime_simple_exact_witness :
    is_prime_simple 97 = true ∧ Nat.Prime 97 :=
  ⟨(is_prime_simple_exact 97 (by norm_num)).mpr (by norm_num), by norm_num⟩

/-! ## Claim C3 -/

/-- C3: `benchmark_algorithm` never propagates an exception and always
produces exactly one result (it is a total function); a raising algorithm
yields `success = false`, empty factors and a non-negative recorded time
(given in-order clock readings `t0 ≤ t1`), and an algorithm returning `None`
or an empty list yields `success = false` regardless of what it signaled. -/
theorem benchmark_algorithm_spec (f : ℤ → Except String (Option (List ℤ)))
    (number : ℤ) (name : String) (t0 t1 : ℚ) (ht : t0 ≤ t1) :
    (∀ e, f number = .error e →
      (benchmark_algorithm f number name t0 t1).success = false ∧
      (benchmark_algorithm f number name t0 t1).factors = [] ∧
      0 ≤ (benchmark_algorithm f number name t0 t1).time_taken) ∧
    (f number = .ok none →
      (benchmark_algorithm f number name t0 t1).success = false) ∧
    (f number = .ok (some []) →
      (benchmark_algorithm f number name t0 t1).success = false) := by
  refine ⟨?_, ?_, ?_⟩
  · intro e he
    rw [benchmark_algorithm, he]
    refine ⟨rfl, rfl, ?_⟩
    simpa [mkResult] using ht
  · intro h
    rw [benchmark_algorithm, h]
    rfl
  · intro h
    rw [benchmark_algorithm, h]
    rfl

/-- Witness for `benchmark_algorithm_spec`: a strategy that always raises
yields a failed result with empty factors and non-negative time, and both
`None` and `[]` results are failures. -/
theorem benchmark_algorithm_spec_witness :
    ((benchmark_algorithm (fun _ => .error "boom") 15 "alg" 0 1).success = false ∧
      (benchmark_algorithm (fun _ => .error "boom") 15 "alg" 0 1).factors = [] ∧
      0 ≤ (benchmark_algorithm (fun _ => .error "boom") 15 "alg" 0 1).time_taken) ∧
    (benchmark_algorithm (fun _ => .ok none) 15 "alg" 0 1).success = false ∧
    (benchmark_algorithm (fun _ => .ok (some [])) 15 "alg" 0 1).success = false :=
  ⟨(benchmark_algorithm_spec (fun _ => .error "boom") 15 "alg" 0 1
      (by norm_num)).1 "boom" rfl,
   (benchmark_algorithm_spec (fun _ => .ok none) 15 "alg" 0 1
      (by norm_num)).2.1 rfl,
   (benchmark_algorithm_spec (fun _ => .ok (some [])) 15 "alg" 0 1
      (by norm_num)).2.2 rfl⟩

/-! ## Claim C6 -/

/-- C6 (amended): a successful `benchmark_algorithm` result always has a
non-empty factor list, and `verify_factors()` returns true exactly when the
factor list is non-empty and its product equals the `number` field (in
particular false on an empty list) — but `success = true` does NOT imply the
product equals `number`: the runner believes whatever non-empty list the
algorithm hands it, and `verify_factors` is the separate authoritative
check. -/
theorem result_invariant_spec :
    (∀ (f : ℤ → Except String (Option (List ℤ))) (number : ℤ) name (t0 t1 : ℚ),
      (benchmark_algorithm f number name t0 t1).success = true →
      (benchmark_algorithm f number name t0 t1).factors ≠ []) ∧
    (∀ r : FactorizationResult,
      r.verify_factors = true ↔ (r.factors ≠ [] ∧ r.factors.prod = r.number)) := by
  constructor
  · intro f number name t0 t1 hs
    rw [benchmark_algorithm] at hs ⊢
    split at hs <;> simp_all [mkResult]
  · intro r
    rw [FactorizationResult.verify_factors]
    split
    · next he => simp [he]
    · next he =>
      have hfold : r.factors.foldl (fun a b => a * b) 1 = r.factors.prod := by
        rw [List.prod_eq_foldl]
      simp [hfold, he]

/-- Witness for `result_invariant_spec`: a successful benchmark result has
non-empty factors, and `verify_factors` holds for the record
`⟨15, "t", [3, 5], 1, true⟩`. -/
theorem result_invariant_spec_witness :
    (benchmark_algorithm (fun _ => .ok (some [3, 5])) 15 "t" 0 1).factors ≠ [] ∧
    ((⟨15, "t", [3, 5], 1, true⟩ : FactorizationResult).verify_factors = true ↔
      ((⟨15, "t", [3, 5], 1, true⟩ : FactorizationResult).factors ≠ [] ∧
        (⟨15, "t", [3, 5], 1, true⟩ : FactorizationResult).factors.prod =
          (⟨15, "t", [3, 5], 1, true⟩ : FactorizationResult).number)) :=
  ⟨result_invariant_spec.1 (fun _ => .ok (some [3, 5])) 15 "t" 0 1 rfl,
   result_invariant_spec.2 ⟨15, "t", [3, 5], 1, true⟩⟩

/-- C6 counterexample: `benchmark_algorithm` marks `success = true` for a
wrapped function that returns the non-empty list `[4]` on input 15, although
the product of the factors (4) differs from the `number` field (15) — so
"`success = true` implies the product of the factors equals `number`" fails
for results produced by the runner. -/
theorem result_invariant_counterexample :
    (benchmark_algorithm (fun _ => .ok (some [4])) 15 "x" 0 1).success = true ∧
    (benchmark_algorithm (fun _ => .ok (some [4])) 15 "x" 0 1).factors.prod ≠
      (benchmark_algorithm (fun _ => .ok (some [4])) 15 "x" 0 1).number := by
  constructor
  · rfl
  · show (4:ℤ) ≠ 15
    norm_num

/-! ## Claim C9 -/

/-- C9 (amended): the speedup cell is computed as `baseline / time` exactly
when the trial-division baseline is present and successful with a **nonzero**
recorded time (Python float truthiness of `baseline`) and the algorithm
succeeded with positive elapsed time; in every other case — including a
successful baseline whose recorded time is 0.0 — the cell is "N/A". -/
theorem speedup_spec :
    (∀ (b r : FactorizationResult),
      speedupCell (some b) r =
        if b.success = true ∧ b.time_taken ≠ 0 ∧ r.success = true ∧ 0 < r.time_taken
          then some (b.time_taken / r.time_taken) else none) ∧
    (∀ r : FactorizationResult, speedupCell none r = none) := by
  constructor
  · intro b r
    rw [speedupCell]
    by_cases hbs : b.success = true
    · rw [if_pos hbs]
      show (if b.time_taken ≠ 0 ∧ r.success = true ∧ 0 < r.time_taken
          then some (b.time_taken / r.time_taken) else none) = _
      by_cases hc : b.time_taken ≠ 0 ∧ r.success = true ∧ 0 < r.time_taken
      · rw [if_pos hc, if_pos ⟨hbs, hc⟩]
      · rw [if_neg hc, if_neg (fun hh => hc ⟨hh.2.1, hh.2.2.1, hh.2.2.2⟩)]
    · rw [if_neg hbs]
      show (none : Option ℚ) = _
      rw [if_neg (fun hh => hbs hh.1)]
  · intro r
    rw [speedupCell]

/-- Witness for `speedup_spec`: with a successful baseline of time 2 and a
successful algorithm of time 1 the cell is the computed ratio 2. -/
theorem speedup_spec_witness :
    speedupCell (some ⟨15, "td", [3, 5], 2, true⟩) ⟨15, "pr", [3, 5], 1, true⟩ =
      some 2 := by
  rw [speedup_spec.1 ⟨15, "td", [3, 5], 2, true⟩ ⟨15, "pr", [3, 5], 1, true⟩]
  rw [if_pos ⟨rfl, by norm_num, rfl, by norm_num⟩]
  norm_num

/-- C9 counterexample: a successful trial-division baseline with recorded
time 0.0 and a successful algorithm with positive time — the claim's
condition for computing a speedup holds, yet the code reports "N/A" because
the float `baseline` is falsy. -/
theorem speedup_counterexample :
    (⟨15, "td", [3, 5], 0, true⟩ : FactorizationResult).success = true ∧
    (⟨15, "pr", [3, 5], 2, true⟩ : FactorizationResult).success = true ∧
    0 < (⟨15, "pr", [3, 5], 2, true⟩ : FactorizationResult).time_taken ∧
    speedupCell (some ⟨15, "td", [3, 5], 0, true⟩) ⟨15, "pr", [3, 5], 2, true⟩ =
      none := by
  refine ⟨rfl, rfl, by norm_num, ?_⟩
  rw [speedupCell]
  simp

/-! ## Claim C7 -/

theorem powModAux_eq : ∀ fuel b e m, e < 2 ^ fuel → powModAux fuel b e m = b ^ e % m := by
  intro fuel
  induction fuel with
  | zero =>
    intro b e m he
    have : e = 0 := by simpa using he
    subst this
    rw [powModAux, pow_zero]
  | succ fuel ih =>
    intro b e m he
    rw [powModAux]
    split
    · next h0 =>
      subst h0
      rw [pow_zero]
    · next h0 =>
      have hrec : powModAux fuel (b * b % m) (e / 2) m = (b * b % m) ^ (e / 2) % m := by
        apply ih
        have h2 : 2 ^ (fuel + 1) = 2 * 2 ^ fuel := by ring
        omega
      have hkey : (b * b % m) ^ (e / 2) % m = b ^ (2 * (e / 2)) % m := by
        rw [← Nat.pow_mod, ← pow_two, ← pow_mul]
      split
      · next hodd =>
        have he2 : 2 * (e / 2) + 1 = e := by omega
        rw [hrec, hkey, Nat.mod_mul_mod, ← pow_succ, he2]
      · next heven =>
        have he2 : 2 * (e / 2) = e := by omega
        rw [hrec, hkey, he2]

theorem cP_prime : Nat.Prime cP := by
  rw [cP]
  norm_num

theorem cT_prime : Nat.Prime cT := by
  rw [cT]
  norm_num

theorem cQ_prime : Nat.Prime cQ := by
  rw [cQ]
  norm_num

/-- `2 ^ cQ ≡ 1 (mod cT)`, certified through fast modular exponentiation. -/
theorem two_pow_cQ_mod_cT : 2 ^ cQ % cT = 1 := by
  rw [← powModAux_eq 17 2 cQ cT (by rw [cQ]; norm_num)]
  decide

/-- `cU ^ cT ≡ 1 (mod cP)`, certified through fast modular exponentiation. -/
theorem cU_pow_cT_mod_cP : cU ^ cT % cP = 1 := by
  rw [← powModAux_eq 23 cU cT cP (by rw [cT]; norm_num)]
  decide

theorem cUW_one : (cU : ZMod cP) * (cW : ZMod cP) = 1 := by
  have h : (cU * cW) % cP = 1 % cP := by decide
  rw [← Nat.cast_mul, ← ZMod.natCast_mod, h, ZMod.natCast_mod, Nat.cast_one]

theorem cU_pow_cT : (cU : ZMod cP) ^ cT = 1 := by
  have h : (cU ^ cT) % cP = 1 % cP := by
    rw [cU_pow_cT_mod_cP]
    decide
  rw [← Nat.cast_pow, ← ZMod.natCast_mod, h, ZMod.natCast_mod, Nat.cast_one]

theorem chiP_sq (e : Nat) : chiP e * chiP e = chiP (2 * e) + 2 := by
  rw [chiP, chiP]
  have h1 : ((cU : ZMod cP) ^ e) * ((cW : ZMod cP) ^ e) = 1 := by
    rw [← mul_pow, cUW_one, one_pow]
  have hu2 : (cU : ZMod cP) ^ e * (cU : ZMod cP) ^ e = (cU : ZMod cP) ^ (2 * e) := by
    rw [← pow_add, two_mul]
  have hw2 : (cW : ZMod cP) ^ e * (cW : ZMod cP) ^ e = (cW : ZMod cP) ^ (2 * e) := by
    rw [← pow_add, two_mul]
  calc ((cU : ZMod cP) ^ e + (cW : ZMod cP) ^ e) * ((cU : ZMod cP) ^ e + (cW : ZMod cP) ^ e)
      = (cU : ZMod cP) ^ e * (cU : ZMod cP) ^ e + (cW : ZMod cP) ^ e * (cW : ZMod cP) ^ e +
          2 * ((cU : ZMod cP) ^ e * (cW : ZMod cP) ^ e) := by ring
    _ = (cU : ZMod cP) ^ (2 * e) + (cW : ZMod cP) ^ (2 * e) + 2 := by
        rw [hu2, hw2, h1, mul_one]

/-- One application of the rho map `x ↦ (x*x + c) % n` with `n = cP`,
`c = cC0 = cP - 2` sends the residue of `χ e` to the residue of `χ (2e)`. -/
theorem cC0_cast : ((cC0 : ℕ) : ZMod cP) = -2 := by
  have h2 : (2 : ℕ) ≤ cP := by rw [cP]; norm_num
  have he : (cC0 : ℕ) = cP - 2 := by rw [cC0, cP]
  rw [he, Nat.cast_sub h2, ZMod.natCast_self, zero_sub]
  norm_num

theorem rhoStep_chiP (e : Nat) :
    rhoStep cP cC0 ((chiP e).val) = (chiP (2 * e)).val := by
  haveI : NeZero cP := ⟨cP_prime.ne_zero⟩
  have hval : (chiP e * chiP e + ((cC0 : ℕ) : ZMod cP)).val
      = ((chiP e).val * (chiP e).val + cC0) % cP := by
    rw [ZMod.val_add, ZMod.val_mul, ZMod.val_natCast, ← Nat.add_mod]
  have halg : chiP e * chiP e + ((cC0 : ℕ) : ZMod cP) = chiP (2 * e) := by
    rw [cC0_cast, chiP_sq]
    ring
  rw [rhoStep, ← hval, halg]

/-- In a field, a collision `u^a + u⁻¹^a = u^b + u⁻¹^b` of the Chebyshev-style
walk forces `u^(b-a) = 1` or `u^(a+b) = 1`. -/
theorem chi_collision {K : Type} [Field K] (u w : K) (huw : u * w = 1) (hu0 : u ≠ 0)
    (a b : Nat) (hab : a < b) (heq : u ^ a + w ^ a = u ^ b + w ^ b) :
    u ^ (b - a) = 1 ∨ u ^ (a + b) = 1 := by
  have hwa : u ^ (a + b) * w ^ a = u ^ b := by
    calc u ^ (a + b) * w ^ a = (u * w) ^ a * u ^ b := by rw [mul_pow, pow_add]; ring
      _ = u ^ b := by rw [huw, one_pow, one_mul]
  have hwb : u ^ (a + b) * w ^ b = u ^ a := by
    calc u ^ (a + b) * w ^ b = (u * w) ^ b * u ^ a := by rw [mul_pow, pow_add]; ring
      _ = u ^ a := by rw [huw, one_pow, one_mul]
  have hzero : (u ^ a - u ^ b) * (u ^ (a + b) - 1) = 0 := by
    have hmul : u ^ (a + b) * ((u ^ a + w ^ a) - (u ^ b + w ^ b)) = 0 := by
      rw [heq]
      ring
    linear_combination hmul - hwa + hwb
  rcases mul_eq_zero.mp hzero with hcase | hcase
  · left
    have heq2 : u ^ a = u ^ b := sub_eq_zero.mp hcase
    have hsplit : a + (b - a) = b := by omega
    have hthis : u ^ a * u ^ (b - a) = u ^ a * 1 := by
      rw [← pow_add, hsplit, mul_one]
      exact heq2.symm
    exact mul_left_cancel₀ (pow_ne_zero _ hu0) hthis
  · right
    exact sub_eq_zero.mp hcase

/-- `cT` divides neither `2^m - 1` nor `2^m + 1` for `1 ≤ m ≤ 100000`,
because the order of 2 modulo `cT` is the prime `cQ = 100003 > 100000`. -/
theorem no_small_two_power (m : Nat) (h1 : 1 ≤ m) (h2 : m ≤ 100000) :
    ¬ (cT ∣ 2 ^ m - 1 ∨ cT ∣ 2 ^ m + 1) := by
  intro hcase
  have h22m : (2 : ZMod cT) ^ (2 * m) = 1 := by
    rcases hcase with hdvd | hdvd
    · have hz : (((2 ^ m - 1 : ℕ)) : ZMod cT) = 0 :=
        (ZMod.natCast_zmod_eq_zero_iff_dvd _ _).mpr hdvd
      have h1le : (1 : ℕ) ≤ 2 ^ m := Nat.one_le_two_pow
      rw [Nat.cast_sub h1le, Nat.cast_pow, Nat.cast_ofNat, Nat.cast_one, sub_eq_zero] at hz
      rw [two_mul, pow_add, hz, one_mul]
    · have hz : (((2 ^ m + 1 : ℕ)) : ZMod cT) = 0 :=
        (ZMod.natCast_zmod_eq_zero_iff_dvd _ _).mpr hdvd
      rw [Nat.cast_add, Nat.cast_pow, Nat.cast_ofNat, Nat.cast_one] at hz
      have hneg : (2 : ZMod cT) ^ m = -1 := by
        have := eq_neg_of_add_eq_zero_left hz
        exact this
      rw [two_mul, pow_add, hneg]
      ring
  have hq1 : (2 : ZMod cT) ^ cQ = 1 := by
    have h : ((2 ^ cQ : ℕ) : ZMod cT) = ((1 : ℕ) : ZMod cT) := by
      rw [← ZMod.natCast_mod, two_pow_cQ_mod_cT]
    rw [Nat.cast_pow, Nat.cast_ofNat, Nat.cast_one] at h
    exact h
  have h2ne1 : (2 : ZMod cT) ≠ 1 := by
    intro h
    have h' : ((2 : ℕ) : ZMod cT) = ((1 : ℕ) : ZMod cT) := by
      rw [Nat.cast_ofNat, Nat.cast_one, h]
    rw [ZMod.natCast_eq_natCast_iff'] at h'
    exact absurd h' (by decide)
  have hord2 : orderOf (2 : ZMod cT) = cQ := by
    have hdvd : orderOf (2 : ZMod cT) ∣ cQ := orderOf_dvd_of_pow_eq_one hq1
    rcases cQ_prime.eq_one_or_self_of_dvd _ hdvd with h | h
    · exact absurd (orderOf_eq_one_iff.mp h) h2ne1
    · exact h
  have hdvd2m : cQ ∣ 2 * m := hord2 ▸ orderOf_dvd_of_pow_eq_one h22m
  have hcop : Nat.Coprime cQ 2 := by
    refine (cQ_prime.coprime_iff_not_dvd).mpr ?_
    intro h
    have := Nat.le_of_dvd (by norm_num) h
    rw [cQ] at this
    omega
  have hdvdm : cQ ∣ m := hcop.dvd_of_dvd_mul_left hdvd2m
  have hle := Nat.le_of_dvd (by omega) hdvdm
  rw [cQ] at hle
  omega

/-- The tortoise and hare residues never collide modulo `cP` within the
iteration budget: `χ(2^m) ≠ χ(2^(2m))` for `1 ≤ m ≤ 100000`. -/
theorem chiP_ne (m : Nat) (h1 : 1 ≤ m) (h2 : m ≤ 100000) :
    chiP (2 ^ m) ≠ chiP (2 ^ (2 * m)) := by
  haveI : Fact (Nat.Prime cP) := ⟨cP_prime⟩
  intro heq
  rw [chiP, chiP] at heq
  have hu1 : (cU : ZMod cP) ≠ 1 := by
    intro h
    have h' : ((cU : ℕ) : ZMod cP) = ((1 : ℕ) : ZMod cP) := by
      rw [h, Nat.cast_one]
    rw [ZMod.natCast_eq_natCast_iff'] at h'
    exact absurd h' (by decide)
  have hu0 : (cU : ZMod cP) ≠ 0 := by
    intro h
    have hpow := cU_pow_cT
    rw [h, zero_pow (show cT ≠ 0 by rw [cT]; norm_num)] at hpow
    exact zero_ne_one hpow
  have hab : 2 ^ m < 2 ^ (2 * m) := Nat.pow_lt_pow_right (by norm_num) (by omega)
  have hordu : orderOf (cU : ZMod cP) = cT := by
    have hdvd := orderOf_dvd_of_pow_eq_one cU_pow_cT
    rcases cT_prime.eq_one_or_self_of_dvd _ hdvd with h | h
    · exact absurd (orderOf_eq_one_iff.mp h) hu1
    · exact h
  have hcopT : Nat.Coprime cT 2 := by
    refine (cT_prime.coprime_iff_not_dvd).mpr ?_
    intro h
    have := Nat.le_of_dvd (by norm_num) h
    rw [cT] at this
    omega
  rcases chi_collision (cU : ZMod cP) (cW : ZMod cP) cUW_one hu0 _ _ hab heq with hpow | hpow
  · have hdvd : cT ∣ 2 ^ (2 * m) - 2 ^ m := hordu ▸ orderOf_dvd_of_pow_eq_one hpow
    have hfac : 2 ^ (2 * m) - 2 ^ m = 2 ^ m * (2 ^ m - 1) := by
      rw [Nat.mul_sub, mul_one, two_mul, pow_add]
    rw [hfac] at hdvd
    exact no_small_two_power m h1 h2
      (Or.inl ((hcopT.pow_right m).dvd_of_dvd_mul_left hdvd))
  · have hdvd : cT ∣ 2 ^ m + 2 ^ (2 * m) := hordu ▸ orderOf_dvd_of_pow_eq_one hpow
    have hfac : 2 ^ m + 2 ^ (2 * m) = 2 ^ m * (2 ^ m + 1) := by
      rw [two_mul, pow_add]
      ring
    rw [hfac] at hdvd
    exact no_small_two_power m h1 h2
      (Or.inr ((hcopT.pow_right m).dvd_of_dvd_mul_left hdvd))

/-- The whole tortoise/hare loop on `n = cP` with draws `x = cX0`,
`c = cC0` keeps `d = 1`: after `k` iterations the state is
`(χ(2^k), χ(2^(2k)), 1)` and the remaining `f` iterations never find a
gcd above 1. -/
theorem pollardRhoLoopP :
    ∀ f k, f + k = 100000 →
      pollardRhoLoop cP cC0 f ((chiP (2 ^ k)).val) ((chiP (2 ^ (2 * k))).val) 1 = 1 := by
  intro f
  induction f with
  | zero =>
    intro k hk
    rw [pollardRhoLoop]
  | succ f ih =>
    intro k hk
    rw [pollardRhoLoop, if_neg (by simp)]
    have e1 : 2 * 2 ^ k = 2 ^ (k + 1) := by ring
    have e2 : 2 * 2 ^ (2 * k) = 2 ^ (2 * k + 1) := by ring
    have e3 : 2 * 2 ^ (2 * k + 1) = 2 ^ (2 * k + 2) := by ring
    have e4 : 2 * k + 2 = 2 * (k + 1) := by ring
    have hx : rhoStep cP cC0 ((chiP (2 ^ k)).val) = (chiP (2 ^ (k + 1))).val := by
      rw [rhoStep_chiP, e1]
    have hy : rhoStep cP cC0 (rhoStep cP cC0 ((chiP (2 ^ (2 * k))).val))
        = (chiP (2 ^ (2 * (k + 1)))).val := by
      rw [rhoStep_chiP, e2, rhoStep_chiP, e3, e4]
    rw [hx, hy]
    have hd : Nat.gcd (max ((chiP (2 ^ (k + 1))).val) ((chiP (2 ^ (2 * (k + 1)))).val)
        - min ((chiP (2 ^ (k + 1))).val) ((chiP (2 ^ (2 * (k + 1)))).val)) cP = 1 := by
      haveI : NeZero cP := ⟨cP_prime.ne_zero⟩
      have hne := chiP_ne (k + 1) (by omega) (by omega)
      have hvne : (chiP (2 ^ (k + 1))).val ≠ (chiP (2 ^ (2 * (k + 1)))).val :=
        fun h => hne (ZMod.val_injective cP h)
      have hlt1 := ZMod.val_lt (chiP (2 ^ (k + 1)))
      have hlt2 := ZMod.val_lt (chiP (2 ^ (2 * (k + 1))))
      rw [Nat.gcd_comm]
      exact (Nat.Prime.coprime_iff_not_dvd cP_prime).mpr
        (fun hdvd => by have := Nat.le_of_dvd (by omega) hdvd; omega)
    rw [hd]
    exact ih (k + 1) (by omega)

/-- With the draws `x = cX0`, `c = cC0`, `pollard_rho(cP)` with its default
budget of 100000 iterations exhausts the budget with `d == 1` and returns 1. -/
theorem pollard_rho_cP_eq_one : pollard_rho cP cX0 cC0 100000 = some 1 := by
  haveI : NeZero cP := ⟨cP_prime.ne_zero⟩
  have hx0 : (chiP (2 ^ 0)).val = cX0 := by
    rw [chiP, pow_zero, pow_one, pow_one, ← Nat.cast_add, ZMod.val_natCast]
    decide
  have hloop := pollardRhoLoopP 100000 0 (by norm_num)
  rw [show (2 : ℕ) * 0 = 0 from rfl] at hloop
  rw [hx0] at hloop
  rw [pollard_rho, if_neg (show ¬ cP % 2 = 0 by decide), hloop]
  rw [if_pos (show (1 : ℕ) ≠ cP by decide)]

/-- For any `n ≥ 1000000` on which every `pollard_rho` call returns the
factor 1, `pollard_rho_factorize(n)` never completes, for any recursion
fuel: the function recurses on `1` and on `n // 1 = n` itself. -/
theorem pollardRhoFactorizeAux_stuck (s : Nat → Nat × Nat) (n : Nat)
    (hbig : 1000000 ≤ n)
    (hrho : ∀ idx, pollard_rho n (s idx).1 (s idx).2 100000 = some 1) :
    ∀ fuel idx, pollardRhoFactorizeAux s fuel idx n = none := by
  intro fuel
  induction fuel with
  | zero =>
    intro idx
    rw [pollardRhoFactorizeAux]
  | succ fuel ih =>
    intro idx
    rw [pollardRhoFactorizeAux]
    rw [if_neg (show ¬ n < 2 by omega)]
    rw [if_neg (show ¬ n = 2 by omega)]
    rw [if_neg (show ¬ ((((pyRange 2 (min (intSqrt n + 1) 1000) 1).all
        fun i => n % i != 0) = true) ∧ n < 1000000) from fun hc => absurd hc.2 (by omega))]
    rw [hrho idx]
    show (if (1 : ℕ) = n then some (if n < 10000 then tdNat n else [n], idx + 1)
      else
        match pollardRhoFactorizeAux s fuel (idx + 1) 1 with
        | none => none
        | some (l₁, idx₁) =>
          match pollardRhoFactorizeAux s fuel idx₁ (n / 1) with
          | none => none
          | some (l₂, idx₂) =>
            some ((l₁ ++ l₂).mergeSort fun a b => decide (a ≤ b), idx₂)) = none
    rw [if_neg (show ¬ (1 : ℕ) = n by omega)]
    cases hfa : pollardRhoFactorizeAux s fuel (idx + 1) 1 with
    | none => rfl
    | some r1 =>
      obtain ⟨l₁, i₁⟩ := r1
      show (match pollardRhoFactorizeAux s fuel i₁ (n / 1) with
        | none => none
        | some (l₂, idx₂) =>
          some ((l₁ ++ l₂).mergeSort fun a b => decide (a ≤ b), idx₂)) = none
      rw [Nat.div_one, ih i₁]

/-- The stuck lemma at `n = cP` with the draws `rhoDrawsP`. -/
theorem pollardRhoFactorizeAux_cP :
    ∀ fuel idx, pollardRhoFactorizeAux rhoDrawsP fuel idx cP = none :=
  pollardRhoFactorizeAux_stuck rhoDrawsP cP (by decide) (fun _ => pollard_rho_cP_eq_one)

/-- C7 counterexample: on the concrete input `cP = 12800387` with the
realizable random draws `x = cX0`, `c = cC0` (both within the `randint`
ranges), `pollard_rho` returns the factor 1, the recursive invocation is on
`cP // 1 = cP` — not strictly smaller — and `pollard_rho_factorize` fails to
complete at any recursion depth (shown here at depth 1000). -/
theorem pollard_rho_factorize_nonterminating_counterexample :
    pollard_rho cP cX0 cC0 100000 = some 1 ∧
    cP / 1 = cP ∧
    pollard_rho_factorize 1000 rhoDrawsP 0 (cP : ℤ) = none ∧
    2 ≤ cX0 ∧ cX0 ≤ cP - 1 ∧ 1 ≤ cC0 ∧ cC0 ≤ cP - 1 ∧
    cP % 2 = 1 ∧ 1000000 ≤ cP := by
  refine ⟨pollard_rho_cP_eq_one, Nat.div_one cP, ?_, by decide, by decide,
    by decide, by decide, by decide, by decide⟩
  rw [pollard_rho_factorize]
  rw [show ((cP : ℤ)).toNat = cP by simp]
  rw [pollardRhoFactorizeAux_cP 1000 0]
  rfl

/-- C7 (amended): whenever the factor `d` found by `pollard_rho` is at least
2 (and differs from `n`, i.e. the branch that actually recurses), both
recursive arguments `d` and `n / d` are strictly smaller than `n`, so the
problem shrinks; but `pollard_rho` can return `d = 1` when its iteration
budget is exhausted, in which case the recursion on `n // 1 = n` does not
shrink and `pollard_rho_factorize` fails to terminate (see the
counterexample at `n = cP`). -/
theorem pollard_rho_factorize_shrinkage :
    ∀ n x c it d, 2 ≤ n → pollard_rho n x c it = some d → 2 ≤ d → d ≠ n →
      d < n ∧ n / d < n := by
  intro n x c it d hn h hd2 hdn
  obtain ⟨hdvd, _⟩ := pollard_rho_some_dvd (show 0 < n by omega) h
  have hdle : d ≤ n := Nat.le_of_dvd (by omega) hdvd
  exact ⟨lt_of_le_of_ne hdle hdn, Nat.div_lt_self (by omega) (by omega)⟩

/-- Witness for `pollard_rho_factorize_shrinkage`: on input 9 with draws
`x = 2, c = 1` and budget 1, the returned factor 3 and cofactor 3 are both
smaller than 9. -/
theorem pollard_rho_factorize_shrinkage_witness :
    3 < 9 ∧ 9 / 3 < 9 :=
  pollard_rho_factorize_shrinkage 9 2 1 1 3 (by norm_num) (by decide)
    (by norm_num) (by norm_num)

end ShorFact
